import Mathlib

/-!
# Verification of the pycow copy-on-write proxy

Shallow embedding of `src/pycow/proxy.py` (a Python 2 module): the `Proxy`
class intercepts `__getattribute__`, `__setattr__` and `__delattr__` on a
wrapped target object and implements copy-on-write semantics.

Modelling choices, all driven by the source:

* Python objects live on an explicit heap (`Heap`, a list indexed by
  addresses).  A heap cell is either a `plain` object (an attribute
  dictionary, modelled as an association list in insertion order) or a
  `proxy` instance with the four pieces of per-instance state the source
  manipulates: `_obj` (the wrapped value), `_is_copied`,
  `_enable_partial_copy` and `_attr_map`.
* Values (`PyVal`) are machine integers, booleans, text strings, or
  references to heap cells.  `primitive_types` in the source is
  `(int, bool, float, long, complex)` — note that text strings are *not*
  primitive there (they appear only in the unused `sequence_types` tuple),
  which `isPrim` reproduces.
* `copy.deepcopy` is modelled by a fuelled structural copy over the heap,
  with fuel `heap.length + 1`: on an acyclic object graph the reference
  depth is bounded by the number of live addresses, so the fuel never runs
  out for the (acyclic, proxy-free) targets considered here.  Python's
  memo-based handling of cyclic graphs and its pickling of `Proxy`
  instances reached through `deepcopy` are outside the model; those cases
  return `none`.
* Exceptions (`AttributeError` from `getattr`/`setattr`/`delattr` on a
  value that does not support it, and the explicit
  `Exception("Modification of proxy objects can lead to unexpected
  behavior")` raised by `__delattr__` on a slot name) are modelled by
  `Option`: a raised exception is `none`.
* `attr_map[name]._is_copied` in the source is an attribute access on a
  map entry.  When the entry is a `Proxy` instance it reads that proxy's
  flag; on any other value Python raises `AttributeError` (no target
  object in this development defines an attribute called `_is_copied`),
  which is modelled as `none`.
* The internal slot fields `_is_copied` / `_enable_partial_copy` hold
  booleans in every reachable state, and `_attr_map` holds a dict; a slot
  write of a value outside the model of that field's type is modelled as
  `none`.
* In the source, `_attr_map = {}` is a *class* attribute: `__init__`
  never installs a per-instance map, so every `Proxy` instance shares one
  dictionary.  The main model below (`pgetattr`/`psetattr`/`pdelattr`)
  charitably gives each proxy cell its own `attrMap` field, which is the
  behaviour the rest of the method code (`object.__setattr__(self,
  "_attr_map", attr_map)`) is written for; the consequences of the actual
  class-level sharing are modelled separately by `CState`/`sgetattr`
  below, where the one shared map is part of the global state.
-/

namespace Pycow

/-- Runtime values: numbers, booleans, text, or references to heap objects. -/
inductive PyVal where
  | int : Int → PyVal
  | bool : Bool → PyVal
  | str : String → PyVal
  | ref : Nat → PyVal
deriving DecidableEq, Repr

/-- `isinstance(attr, primitive_types)` where
`primitive_types = (int, bool, float, long, complex)` in the source.
Text strings are *not* in that tuple (they are listed only in the unused
`sequence_types`), so `str` values are not primitive. -/
def isPrim : PyVal → Bool
  | .int _ => true
  | .bool _ => true
  | _ => false

/-- An attribute dictionary: name/value pairs in insertion order. -/
abbrev Attrs := List (String × PyVal)

/-- A heap cell: a plain Python object (its `__dict__`), or a `Proxy`
instance with fields `_obj`, `_is_copied`, `_enable_partial_copy`,
`_attr_map`. -/
inductive HObj where
  | plain (attrs : Attrs) : HObj
  | proxy (obj : PyVal) (isCopied : Bool) (pcEnabled : Bool) (attrMap : Attrs) : HObj
deriving DecidableEq, Repr

abbrev Heap := List HObj

/-- Read the heap cell at an address. -/
def hGet : Heap → Nat → Option HObj
  | [], _ => none
  | o :: _, 0 => some o
  | _ :: t, n + 1 => hGet t n

/-- Overwrite the heap cell at an address (no-op past the end). -/
def hSet : Heap → Nat → HObj → Heap
  | [], _, _ => []
  | _ :: t, 0, o => o :: t
  | x :: t, n + 1, o => x :: hSet t n o

/-- Dictionary lookup (first matching key). -/
def lookupA : Attrs → String → Option PyVal
  | [], _ => none
  | (n', v') :: t, n => if n' = n then some v' else lookupA t n

/-- Dictionary store: update the existing key in place, else append. -/
def setA : Attrs → String → PyVal → Attrs
  | [], n, v => [(n, v)]
  | (n', v') :: t, n, v => if n' = n then (n, v) :: t else (n', v') :: setA t n v

/-- Dictionary delete (removes the first matching key). -/
def delA : Attrs → String → Attrs
  | [], _ => []
  | (n', v') :: t, n => if n' = n then t else (n', v') :: delA t n

/-- The `__slots__` list of the `Proxy` class. -/
def slotNames : List String :=
  ["_obj", "__weakref__", "__slots__", "_is_copied", "_enable_partial_copy", "_attr_map"]

/-- Copies an attribute list with `f` applied to each value, threading the
heap; used by `dcopyVal` for the recursive clause of `copy.deepcopy`. -/
def dcopyFoldWith (f : Heap → PyVal → Option (Heap × PyVal)) :
    Heap → Attrs → Option (Heap × Attrs)
  | h, [] => some (h, [])
  | h, (n, v) :: rest =>
    match f h v with
    | some (h1, v') =>
      match dcopyFoldWith f h1 rest with
      | some (h2, rest') => some (h2, (n, v') :: rest')
      | none => none
    | none => none

/-- `copy.deepcopy` on a value: primitives and strings are returned as-is,
a reference to a plain object is copied structurally to a fresh address.
Fuel bounds the reference depth (sufficient on acyclic graphs when started
at `heap.length + 1`); a reference to a `Proxy` instance or a dangling
reference is outside the model (`none`). -/
def dcopyVal : Nat → Heap → PyVal → Option (Heap × PyVal)
  | 0, _, _ => none
  | fuel + 1, h, .ref a =>
    match hGet h a with
    | some (.plain attrs) =>
      match dcopyFoldWith (fun h' v => dcopyVal fuel h' v) h attrs with
      | some (h1, attrs') => some (h1 ++ [HObj.plain attrs'], .ref h1.length)
      | none => none
    | _ => none
  | _ + 1, h, v => some (h, v)

/-- `getattr(value, name)` for the values of this model: only a reference
to a plain object supports arbitrary attribute reads; a missing attribute
is an `AttributeError` (`none`). -/
def getattrVal (h : Heap) (v : PyVal) (name : String) : Option PyVal :=
  match v with
  | .ref a =>
    match hGet h a with
    | some (.plain attrs) => lookupA attrs name
    | _ => none
  | _ => none

/-- `setattr(value, name, x)`: writes into a plain object's dictionary. -/
def setattrVal (h : Heap) (v : PyVal) (name : String) (x : PyVal) : Option Heap :=
  match v with
  | .ref a =>
    match hGet h a with
    | some (.plain attrs) => some (hSet h a (.plain (setA attrs name x)))
    | _ => none
  | _ => none

/-- `delattr(value, name)`: removes an attribute from a plain object's
dictionary; deleting a missing attribute is an `AttributeError`. -/
def delattrVal (h : Heap) (v : PyVal) (name : String) : Option Heap :=
  match v with
  | .ref a =>
    match hGet h a with
    | some (.plain attrs) =>
      if (lookupA attrs name).isSome then some (hSet h a (.plain (delA attrs name)))
      else none
    | _ => none
  | _ => none

/-- `attr_map[name]._is_copied`: reads the flag of a map entry that is a
`Proxy` instance; any other entry raises `AttributeError` (`none` — no
plain object in this development defines `_is_copied`). -/
def entryIsCopied (h : Heap) : PyVal → Option Bool
  | .ref q =>
    match hGet h q with
    | some (.proxy _ ec _ _) => some ec
    | _ => none
  | _ => none

/-- The fold loop of `__getattribute__`:

```python
for attr_map_entry in attr_map:
    if not attr_map[attr_map_entry]._is_copied:
        attr_map[attr_map_entry]._obj = copy.deepcopy(attr_map[attr_map_entry]._obj)
        attr_map[attr_map_entry]._is_copied = True
    setattr(self._obj, attr_map_entry, attr_map[attr_map_entry]._obj)
```

`d` is the address of the freshly assigned duplicate `self._obj`. -/
def foldEntries (h : Heap) (d : Nat) : Attrs → Option Heap
  | [] => some h
  | (n, e) :: rest =>
    match e with
    | .ref q =>
      match hGet h q with
      | some (.proxy eobj ec eep eam) =>
        if ec then
          match setattrVal h (.ref d) n eobj with
          | some h1 => foldEntries h1 d rest
          | none => none
        else
          match dcopyVal (h.length + 1) h eobj with
          | some (h1, eobj2) =>
            match setattrVal (hSet h1 q (.proxy eobj2 true eep eam)) (.ref d) n eobj2 with
            | some h3 => foldEntries h3 d rest
            | none => none
          | none => none
      | _ => none
    | _ => none

/-- `Proxy.__getattribute__(self, name)` at proxy address `p`.  Returns the
value read and the resulting heap.  Follows the source line by line:

* `name not in slots` → the interception path (note that `"__class__"`
  is not in `__slots__`, so the source's `elif name == "__class__"` branch
  is unreachable and does not appear here either);
* if `self._is_copied`: read straight from the duplicate;
* if `name in attr_map`: when not in partial mode and the entry is itself
  a copied proxy, duplicate `self._obj`, set `_is_copied`, fold every map
  entry onto the duplicate and re-read `name` from it; otherwise return
  the entry unchanged (the `and` short-circuits, so in partial mode the
  entry's `_is_copied` is never consulted);
* otherwise fetch the attribute from the target: primitives are returned
  as-is, anything else is wrapped in a fresh `Proxy(attr)` — constructed
  with `_partial_copy=False`, its default — and cached in the map;
* `name in slots` → `object.__getattribute__(self, name)`. -/
def pgetattr (h : Heap) (p : Nat) (name : String) : Option (PyVal × Heap) :=
  match hGet h p with
  | some (.proxy obj c ep am) =>
    if name ∈ slotNames then
      if name = "_obj" then some (obj, h)
      else if name = "_is_copied" then some (.bool c, h)
      else if name = "_enable_partial_copy" then some (.bool ep, h)
      else none
    else
      if c then
        match getattrVal h obj name with
        | some v => some (v, h)
        | none => none
      else
        match lookupA am name with
        | some e =>
          if ep then some (e, h)
          else
            match entryIsCopied h e with
            | some true =>
              match dcopyVal (h.length + 1) h obj with
              | some (h1, obj2) =>
                match obj2 with
                | .ref d =>
                  match foldEntries (hSet h1 p (.proxy obj2 true ep am)) d am with
                  | some h3 =>
                    match getattrVal h3 (.ref d) name with
                    | some v => some (v, h3)
                    | none => none
                  | none => none
                | _ => none
              | none => none
            | some false => some (e, h)
            | none => none
        | none =>
          match getattrVal h obj name with
          | some attr =>
            if isPrim attr then some (attr, h)
            else
              some (.ref h.length,
                hSet (h ++ [HObj.proxy attr false false []]) p
                  (.proxy obj c ep (setA am name (.ref h.length))))
          | none => none
  | _ => none

/-- `Proxy.__setattr__(self, name, value)` at proxy address `p`.  The
`Bool` in the result records whether this call performed the
`copy.deepcopy(self._obj)` duplication (the spec's "duplication counter").
Follows the source:

* `name not in slots`:
  - if `not self._is_copied and not self._enable_partial_copy`: duplicate
    `self._obj`, set `_is_copied = True`;
  - if `self._enable_partial_copy`: store `value` in `_attr_map[name]`
    and return — the target is never touched on this path;
  - otherwise `setattr(self._obj, name, value)` and, when `name` is
    already in `_attr_map`, overwrite that entry with the raw value;
* `name in slots` → `object.__setattr__(self, name, value)`: the write is
  performed on the internal field, with no error raised. -/
def psetattr (h : Heap) (p : Nat) (name : String) (v : PyVal) : Option (Heap × Bool) :=
  match hGet h p with
  | some (.proxy obj c ep am) =>
    if name ∈ slotNames then
      if name = "_obj" then some (hSet h p (.proxy v c ep am), false)
      else if name = "_is_copied" then
        match v with
        | .bool b => some (hSet h p (.proxy obj b ep am), false)
        | _ => none
      else if name = "_enable_partial_copy" then
        match v with
        | .bool b => some (hSet h p (.proxy obj c b am), false)
        | _ => none
      else none
    else
      if ep then
        some (hSet h p (.proxy obj c ep (setA am name v)), false)
      else if c then
        match setattrVal h obj name v with
        | some h1 =>
          some (hSet h1 p
            (.proxy obj c ep (if (lookupA am name).isSome then setA am name v else am)), false)
        | none => none
      else
        match dcopyVal (h.length + 1) h obj with
        | some (h1, obj2) =>
          match setattrVal (hSet h1 p (.proxy obj2 true ep am)) obj2 name v with
          | some h3 =>
            some (hSet h3 p
              (.proxy obj2 true ep (if (lookupA am name).isSome then setA am name v else am)),
              true)
          | none => none
        | none => none
  | _ => none

/-- `Proxy.__delattr__(self, name)` at proxy address `p`.  The source:

```python
if name not in slots:
    delattr(object.__getattribute__(self, "_obj"), name)
else:
    raise Exception("Modification of proxy objects can lead to unexpected behavior")
```

There is no copied check and no duplication: the delete goes straight to
`self._obj`, which while `_is_copied` is false is the still-shared
original target. -/
def pdelattr (h : Heap) (p : Nat) (name : String) : Option Heap :=
  match hGet h p with
  | some (.proxy obj _ _ _) =>
    if name ∈ slotNames then none
    else delattrVal h obj name
  | _ => none

/-- A sequence of attribute writes through the proxy at `p`; the `Nat`
counts how many of them performed the deep duplication. -/
def writeSeq (h : Heap) (p : Nat) : List (String × PyVal) → Option (Heap × Nat)
  | [] => some (h, 0)
  | (n, v) :: rest =>
    match psetattr h p n v with
    | some (h1, b) =>
      match writeSeq h1 p rest with
      | some (h2, cnt) => some (h2, (if b then 1 else 0) + cnt)
      | none => none
    | none => none

/-- A sequence of attribute reads through the proxy at `p` (results are
discarded, the heap is threaded through). -/
def readSeq (h : Heap) (p : Nat) : List String → Option Heap
  | [] => some h
  | n :: rest =>
    match pgetattr h p n with
    | some (_, h1) => readSeq h1 p rest
    | none => none

/-!
## The class-level `_attr_map`

In the source, `_attr_map = {}` is declared in the class body of `Proxy`
and `__init__` only ever assigns `_obj` and `_enable_partial_copy`: no
per-instance map is ever created, so every `Proxy` instance resolves
`_attr_map` to the *same* dictionary object.  The definitions below model
that sharing directly: the one class-level map (`cmap`) is part of the
global state, and each instance carries only the per-instance fields that
`__init__` / `object.__setattr__` actually install (`_obj`, `_is_copied`,
`_enable_partial_copy`).  Nested proxies allocated by a read are stored on
the heap; their own `attrMap` field is inert in this model (they too would
consult the shared map). -/

/-- The per-instance state a `Proxy` actually owns: `_obj`, `_is_copied`
and `_enable_partial_copy`.  The override map is *not* here — it is the
shared class attribute. -/
structure SProxy where
  obj : PyVal
  isCopied : Bool
  pcEnabled : Bool
deriving DecidableEq, Repr

/-- Global state: the heap plus the single class-level `_attr_map`
dictionary shared by every `Proxy` instance. -/
structure CState where
  heap : Heap
  cmap : Attrs
deriving DecidableEq, Repr

/-- `Proxy.__getattribute__` under the actual class-level `_attr_map`
sharing: identical to `pgetattr` except that `attr_map` is the shared
`st.cmap` rather than a per-instance field.  Returns the value read, the
(possibly updated) instance state, and the new global state. -/
def sgetattr (st : CState) (pr : SProxy) (name : String) :
    Option (PyVal × SProxy × CState) :=
  if name ∈ slotNames then
    if name = "_obj" then some (pr.obj, pr, st)
    else if name = "_is_copied" then some (.bool pr.isCopied, pr, st)
    else if name = "_enable_partial_copy" then some (.bool pr.pcEnabled, pr, st)
    else none
  else
    if pr.isCopied then
      match getattrVal st.heap pr.obj name with
      | some v => some (v, pr, st)
      | none => none
    else
      match lookupA st.cmap name with
      | some e =>
        if pr.pcEnabled then some (e, pr, st)
        else
          match entryIsCopied st.heap e with
          | some true =>
            match dcopyVal (st.heap.length + 1) st.heap pr.obj with
            | some (h1, obj2) =>
              match obj2 with
              | .ref d =>
                match foldEntries h1 d st.cmap with
                | some h3 =>
                  match getattrVal h3 (.ref d) name with
                  | some v => some (v, ⟨obj2, true, pr.pcEnabled⟩, ⟨h3, st.cmap⟩)
                  | none => none
                | none => none
              | _ => none
            | none => none
          | some false => some (e, pr, st)
          | none => none
      | none =>
        match getattrVal st.heap pr.obj name with
        | some attr =>
          if isPrim attr then some (attr, pr, st)
          else
            some (.ref st.heap.length, pr,
              ⟨st.heap ++ [HObj.proxy attr false false []],
               setA st.cmap name (.ref st.heap.length)⟩)
        | none => none

/-!
## Concrete scenarios

`hTP` is the `TwoPoints(Point(1, 2), Point(3, 4))` example from the
source's docstring, proxied in full-copy mode; the other heaps are the
intermediate states of the traces studied below (each one checked by
evaluation against the step that produces it). -/

/-- A target with two integer attributes, wrapped by a full-copy proxy at
address 1. -/
def hDel : Heap :=
  [.plain [("a", .int 1), ("b", .int 2)], .proxy (.ref 0) false false []]

/-- A target with a text-string attribute and an integer attribute,
wrapped by a full-copy proxy at address 1. -/
def hStr : Heap :=
  [.plain [("s", .str "hi"), ("n", .int 7)], .proxy (.ref 0) false false []]

/-- Target `{a: {x: 1, y: 2}, b: {x: 3, y: 4}}` (address 2) wrapped by a
full-copy proxy (address 3). -/
def hTP : Heap :=
  [.plain [("x", .int 1), ("y", .int 2)],
   .plain [("x", .int 3), ("y", .int 4)],
   .plain [("a", .ref 0), ("b", .ref 1)],
   .proxy (.ref 2) false false []]

/-- `hTP` after reading `proxy.a`: a nested proxy for `a` was allocated at
address 4 and cached in the override map. -/
def hTPa : Heap :=
  [.plain [("x", .int 1), ("y", .int 2)],
   .plain [("x", .int 3), ("y", .int 4)],
   .plain [("a", .ref 0), ("b", .ref 1)],
   .proxy (.ref 2) false false [("a", .ref 4)],
   .proxy (.ref 0) false false []]

/-- `hTPa` after reading `proxy.b`: a nested proxy for `b` at address 5. -/
def hTPab : Heap :=
  [.plain [("x", .int 1), ("y", .int 2)],
   .plain [("x", .int 3), ("y", .int 4)],
   .plain [("a", .ref 0), ("b", .ref 1)],
   .proxy (.ref 2) false false [("a", .ref 4), ("b", .ref 5)],
   .proxy (.ref 0) false false [],
   .proxy (.ref 1) false false []]

/-- `hTPab` after the write `proxy.b.x = 99`: only the nested proxy for
`b` copied (its duplicate of the `b` sub-object is at address 6); the root
proxy at 3 is untouched and still uncopied. -/
def hTPw : Heap :=
  [.plain [("x", .int 1), ("y", .int 2)],
   .plain [("x", .int 3), ("y", .int 4)],
   .plain [("a", .ref 0), ("b", .ref 1)],
   .proxy (.ref 2) false false [("a", .ref 4), ("b", .ref 5)],
   .proxy (.ref 0) false false [],
   .proxy (.ref 6) true false [],
   .plain [("x", .int 99), ("y", .int 4)]]

/-- `hTPw` after the next read of `proxy.b`, which triggers the root
duplication and the fold: the root duplicate is at 9 (its first-pass
copies of the sub-objects at 7 and 8 are immediately overwritten by the
fold), the fold deep-copied the still-uncopied `a` sub-object to the
fresh address 10, and attached the copied `b` duplicate (address 6). -/
def hTPr : Heap :=
  [.plain [("x", .int 1), ("y", .int 2)],
   .plain [("x", .int 3), ("y", .int 4)],
   .plain [("a", .ref 0), ("b", .ref 1)],
   .proxy (.ref 9) true false [("a", .ref 4), ("b", .ref 5)],
   .proxy (.ref 10) true false [],
   .proxy (.ref 6) true false [],
   .plain [("x", .int 99), ("y", .int 4)],
   .plain [("x", .int 1), ("y", .int 2)],
   .plain [("x", .int 3), ("y", .int 4)],
   .plain [("a", .ref 10), ("b", .ref 6)],
   .plain [("x", .int 1), ("y", .int 2)]]

/-- Two unrelated targets for the shared-`_attr_map` scenario:
`T1 = {a: {x: 1}}` at address 1, `T2 = {a: {x: 2}}` at address 3. -/
def hC3 : Heap :=
  [.plain [("x", .int 1)], .plain [("a", .ref 0)],
   .plain [("x", .int 2)], .plain [("a", .ref 2)]]

/-- The global state after the proxy over `T1` reads attribute `a`: the
nested proxy it allocated (address 4, wrapping `T1`'s sub-object at 0)
now sits in the class-level map under `"a"`. -/
def stC3 : CState :=
  ⟨hC3 ++ [.proxy (.ref 0) false false []], [("a", .ref 4)]⟩

/-- Target `{c: {z: 5}}` wrapped by a *partial-copy-mode* proxy at
address 2 (for the nested-proxy-mode claim). -/
def hW : Heap :=
  [.plain [("z", .int 5)], .plain [("c", .ref 0)], .proxy (.ref 1) false true []]

/-- `hW` after reading `proxy.c`: the nested proxy at address 3 was
created with partial-copy mode disabled although the root enables it. -/
def hW1 : Heap :=
  [.plain [("z", .int 5)], .plain [("c", .ref 0)],
   .proxy (.ref 1) false true [("c", .ref 3)],
   .proxy (.ref 0) false false []]

/-- `hW1` after the first write `proxy.c.z = 9` through the nested proxy:
the `c` sub-object was deep-copied (to address 4) before the write. -/
def hW2 : Heap :=
  [.plain [("z", .int 5)], .plain [("c", .ref 0)],
   .proxy (.ref 1) false true [("c", .ref 3)],
   .proxy (.ref 4) true false [],
   .plain [("z", .int 9)]]

/-- A target with two integer attributes wrapped by a *partial-copy-mode*
proxy at address 1. -/
def hPC : Heap :=
  [.plain [("a", .int 1), ("b", .int 2)], .proxy (.ref 0) false true []]

/-- `hDel` after the write sequence `proxy.a = 5; proxy.a = 7` in
full-copy mode: one duplicate (address 2), both writes landed on it. -/
def hDelW : Heap :=
  [.plain [("a", .int 1), ("b", .int 2)], .proxy (.ref 2) true false [],
   .plain [("a", .int 7), ("b", .int 2)]]

/-!
## Invariants used by the sequence proofs -/

/-- State of a full-copy proxy after its eager duplication, relative to
the pre-duplication heap `h0`: the proxy at `p` is copied and re-targeted
at the duplicate `d`, which is a fresh plain object; every pre-existing
cell other than the proxy's own is exactly as in `h0`. -/
def WInv (h0 h : Heap) (p t d : Nat) : Prop :=
  (∃ am, hGet h p = some (.proxy (.ref d) true false am)) ∧
  (∃ da, hGet h d = some (.plain da)) ∧
  p < h0.length ∧ t < h0.length ∧ h0.length ≤ d ∧ t ≠ p ∧
  (∀ a, a < h0.length → a ≠ p → hGet h a = hGet h0 a)

/-- State of a still-uncopied full-copy proxy reachable by reads alone:
every override entry is a nested proxy that is itself still uncopied. -/
def ReadOk (h : Heap) (p t : Nat) : Prop :=
  ∃ am, hGet h p = some (.proxy (.ref t) false false am) ∧
    ∀ pr ∈ am, ∃ q o eep m,
      pr.2 = .ref q ∧ q ≠ p ∧ q < h.length ∧ hGet h q = some (.proxy o false eep m)

/-!
## Heap and dictionary lemmas -/

theorem hGet_lt_length {h : Heap} {a : Nat} {o : HObj} (hx : hGet h a = some o) :
    a < h.length := by
  induction h generalizing a with
  | nil => cases hx
  | cons x t ih =>
    cases a with
    | zero => exact Nat.succ_pos _
    | succ n => exact Nat.succ_lt_succ (ih hx)

theorem hGet_append_lt {h : Heap} (t : Heap) {a : Nat} (ha : a < h.length) :
    hGet (h ++ t) a = hGet h a := by
  induction h generalizing a with
  | nil => cases ha
  | cons x s ih =>
    cases a with
    | zero => rfl
    | succ n => exact ih (Nat.lt_of_succ_lt_succ ha)

theorem hGet_append_len (h : Heap) (o : HObj) : hGet (h ++ [o]) h.length = some o := by
  induction h with
  | nil => rfl
  | cons x s ih => exact ih

theorem hGet_hSet_self {h : Heap} {a : Nat} (o : HObj) (ha : a < h.length) :
    hGet (hSet h a o) a = some o := by
  induction h generalizing a with
  | nil => cases ha
  | cons x s ih =>
    cases a with
    | zero => rfl
    | succ n => exact ih (Nat.lt_of_succ_lt_succ ha)

theorem hGet_hSet_ne {h : Heap} {a b : Nat} (o : HObj) (hab : a ≠ b) :
    hGet (hSet h a o) b = hGet h b := by
  induction h generalizing a b with
  | nil => rfl
  | cons x s ih =>
    cases a with
    | zero =>
      cases b with
      | zero => exact absurd rfl hab
      | succ m => rfl
    | succ n =>
      cases b with
      | zero => rfl
      | succ m => exact ih (fun e => hab (congrArg Nat.succ e))

theorem length_hSet (h : Heap) (a : Nat) (o : HObj) : (hSet h a o).length = h.length := by
  induction h generalizing a with
  | nil => rfl
  | cons x s ih =>
    cases a with
    | zero => rfl
    | succ n => exact congrArg Nat.succ (ih n)

theorem lookupA_setA_self (m : Attrs) (n : String) (v : PyVal) :
    lookupA (setA m n v) n = some v := by
  induction m with
  | nil => simp [setA, lookupA]
  | cons pr t ih =>
    by_cases e : pr.1 = n
    · simp [setA, lookupA, e]
    · simp [setA, lookupA, e, ih]

theorem lookupA_setA_ne {n n' : String} (m : Attrs) (v : PyVal) (hne : n ≠ n') :
    lookupA (setA m n v) n' = lookupA m n' := by
  induction m with
  | nil => simp [setA, lookupA, hne]
  | cons pr t ih =>
    by_cases e : pr.1 = n
    · simp [setA, lookupA, e, hne]
    · simp [setA, lookupA, e, ih]

theorem lookupA_mem {m : Attrs} {n : String} {v : PyVal} (hx : lookupA m n = some v) :
    (n, v) ∈ m := by
  induction m with
  | nil => cases hx
  | cons pr t ih =>
    by_cases e : pr.1 = n
    · simp [lookupA, e] at hx
      subst e hx
      exact List.mem_cons_self _ _
    · simp [lookupA, e] at hx
      exact List.mem_cons_of_mem _ (ih hx)

theorem setA_mem {m : Attrs} {n : String} {v : PyVal} {pr : String × PyVal}
    (hx : pr ∈ setA m n v) : pr ∈ m ∨ pr = (n, v) := by
  induction m with
  | nil =>
    simp [setA] at hx
    exact Or.inr hx
  | cons hd t ih =>
    by_cases e : hd.1 = n
    · simp [setA, e] at hx
      rcases hx with hx | hx
      · exact Or.inr hx
      · exact Or.inl (List.mem_cons_of_mem _ hx)
    · simp [setA, e] at hx
      rcases hx with hx | hx
      · exact Or.inl (by simp [hx])
      · rcases ih hx with hq | hq
        · exact Or.inl (List.mem_cons_of_mem _ hq)
        · exact Or.inr hq

/-- Inversion for a successful `setattr`. -/
theorem setattrVal_some {h : Heap} {u : PyVal} {n : String} {x : PyVal} {h' : Heap}
    (hs : setattrVal h u n x = some h') :
    ∃ a attrs, u = .ref a ∧ hGet h a = some (.plain attrs) ∧
      h' = hSet h a (.plain (setA attrs n x)) := by
  cases u with
  | ref a =>
    cases hg : hGet h a with
    | none => simp [setattrVal, hg] at hs
    | some o =>
      cases o with
      | plain attrs =>
        refine ⟨a, attrs, rfl, hg, ?_⟩
        simp [setattrVal, hg] at hs
        exact hs.symm
      | proxy _ _ _ _ => simp [setattrVal, hg] at hs
  | int k => simp [setattrVal] at hs
  | bool b => simp [setattrVal] at hs
  | str s => simp [setattrVal] at hs

/-- `copy.deepcopy`'s attribute fold only appends to the heap (given that
the copier it is handed does). -/
theorem dcopyFoldWith_append
    {f : Heap → PyVal → Option (Heap × PyVal)}
    (hf : ∀ h v h' v', f h v = some (h', v') → ∃ t, h' = h ++ t) :
    ∀ {l : Attrs} {h h' : Heap} {l' : Attrs},
      dcopyFoldWith f h l = some (h', l') → ∃ t, h' = h ++ t := by
  intro l
  induction l with
  | nil =>
    intro h h' l' hx
    simp [dcopyFoldWith] at hx
    exact ⟨[], by simp [hx.1]⟩
  | cons pr rest ih =>
    intro h h' l' hx
    simp only [dcopyFoldWith] at hx
    split at hx
    · rename_i h1 v1 heq1
      split at hx
      · rename_i h2 rest' heq2
        simp at hx
        rcases hf _ _ _ _ heq1 with ⟨t1, e1⟩
        rcases ih heq2 with ⟨t2, e2⟩
        exact ⟨t1 ++ t2, by rw [← hx.1, e2, e1, List.append_assoc]⟩
      · cases hx
    · cases hx

/-- `copy.deepcopy` only appends to the heap. -/
theorem dcopyVal_append :
    ∀ {fuel : Nat} {h : Heap} {v : PyVal} {h' : Heap} {v' : PyVal},
      dcopyVal fuel h v = some (h', v') → ∃ t, h' = h ++ t := by
  intro fuel
  induction fuel with
  | zero => intro h v h' v' hx; cases hx
  | succ f ih =>
    intro h v h' v' hx
    cases v with
    | ref a =>
      simp only [dcopyVal] at hx
      split at hx
      · rename_i attrs heq
        split at hx
        · rename_i h1 attrs' hfo
          simp at hx
          rcases dcopyFoldWith_append (fun a b c d hy => ih hy) hfo with ⟨t, e⟩
          exact ⟨t ++ [HObj.plain attrs'], by rw [← hx.1, e, List.append_assoc]⟩
        · cases hx
      · cases hx
    | int k => simp [dcopyVal] at hx; exact ⟨[], by simp [hx.1]⟩
    | bool b => simp [dcopyVal] at hx; exact ⟨[], by simp [hx.1]⟩
    | str s => simp [dcopyVal] at hx; exact ⟨[], by simp [hx.1]⟩

/-- Inversion for a successful `copy.deepcopy` of an object reference:
the source cell is a plain object, and the result is a fresh plain cell
appended beyond the original heap. -/
theorem dcopyVal_ref {fuel : Nat} {h : Heap} {a : Nat} {h' : Heap} {v' : PyVal}
    (hx : dcopyVal fuel h (.ref a) = some (h', v')) :
    ∃ d attrs0 attrs', v' = .ref d ∧ hGet h a = some (.plain attrs0) ∧
      h.length ≤ d ∧ hGet h' d = some (.plain attrs') ∧ ∃ t, h' = h ++ t := by
  cases fuel with
  | zero => cases hx
  | succ f =>
    simp only [dcopyVal] at hx
    split at hx
    · rename_i attrs heq
      split at hx
      · rename_i h1 attrs' hfo
        simp at hx
        rcases dcopyFoldWith_append (fun a b c d hy => dcopyVal_append hy) hfo with ⟨t, e⟩
        refine ⟨h1.length, attrs, attrs', hx.2.symm, heq, ?_, ?_, ?_⟩
        · rw [e]; simp
        · rw [← hx.1]; exact hGet_append_len h1 (HObj.plain attrs')
        · exact ⟨t ++ [HObj.plain attrs'], by rw [← hx.1, e, List.append_assoc]⟩
      · cases hx
    · cases hx

/-!
## Claims -/

/-- C1: the claim says `Delete(name)` on an uncopied full-copy proxy first
forces the duplication sequence and never removes an attribute from the
still-shared target.  The code does the opposite: evaluating
`__delattr__` on the uncopied full-copy proxy of `hDel` deletes `a`
directly from the shared original target (cell 0 loses the attribute in
place), performs no duplication (the heap does not grow) and leaves the
proxy uncopied. -/
theorem c1_delete_mutates_shared_target :
    pdelattr hDel 1 "a" =
      some [HObj.plain [("b", .int 2)], HObj.proxy (.ref 0) false false []] ∧
    [HObj.plain [("b", .int 2)], HObj.proxy (.ref 0) false false []].length =
      hDel.length := by
  decide

/-- C2 counterexample: the claim says a text-string-valued attribute is
returned as-is, not proxy-typed, with no override entry created.  In the
code `primitive_types = (int, bool, float, long, complex)` does not
include strings, so reading `s` (bound to the string `"hi"`) returns a
reference to a freshly allocated `Proxy` wrapping the string, and caches
that proxy in the override map. -/
theorem c2_string_attr_is_wrapped :
    pgetattr hStr 1 "s" =
      some (.ref 2,
        [HObj.plain [("s", .str "hi"), ("n", .int 7)],
         HObj.proxy (.ref 0) false false [("s", .ref 2)],
         HObj.proxy (.str "hi") false false []]) := by
  decide

/-- C3: the claim says every proxy owns its own override map, so an entry
created through P1 is never visible through P2.  In the code `_attr_map =
{}` is a class attribute and `__init__` never creates a per-instance map,
so all proxies share one dictionary: after the proxy over `T1` reads `a`
(caching its nested proxy, address 4, wrapping `T1`'s sub-object at 0),
the read of `a` through the *independent* proxy over `T2` finds `"a"` in
the shared map and returns that same nested proxy — a value belonging to
`T1` — instead of wrapping `T2`'s own sub-object (address 2). -/
theorem c3_class_level_attr_map_shared :
    sgetattr ⟨hC3, []⟩ ⟨.ref 1, false, false⟩ "a" =
      some (.ref 4, ⟨.ref 1, false, false⟩, stC3) ∧
    sgetattr stC3 ⟨.ref 3, false, false⟩ "a" =
      some (.ref 4, ⟨.ref 3, false, false⟩, stC3) ∧
    hGet stC3.heap 4 = some (.proxy (.ref 0) false false []) ∧
    getattrVal stC3.heap (.ref 3) "a" = some (.ref 2) := by
  decide

/-- C5 counterexample: the claim says the write `proxy.b.x = 99` (after
reading `proxy.a.x`) "triggers duplication of the root" and folds the `a`
override into the duplicate.  Running the trace on the code: the reads
return `1` and create the nested proxies, the write deep-copies only the
nested `b` proxy's sub-object (to cell 6), and afterwards the root proxy
(cell 3) is still `copied == false` with `_obj` still the original shared
target (cell 2), which is unchanged — no duplication of the root
occurred at the time of the write. -/
theorem c5_write_does_not_duplicate_root :
    pgetattr hTP 3 "a" = some (.ref 4, hTPa) ∧
    pgetattr hTPa 4 "x" = some (.int 1, hTPa) ∧
    pgetattr hTPa 3 "b" = some (.ref 5, hTPab) ∧
    psetattr hTPab 5 "x" (.int 99) = some (hTPw, true) ∧
    hGet hTPw 3 = some (.proxy (.ref 2) false false [("a", .ref 4), ("b", .ref 5)]) ∧
    hGet hTPw 2 = some (.plain [("a", .ref 0), ("b", .ref 1)]) ∧
    hGet hTPw 1 = some (.plain [("x", .int 3), ("y", .int 4)]) := by
  decide

/-- C5 amended: in the scenario `{a: {x: 1, y: 2}, b: {x: 3, y: 4}}`,
reading `proxy.a.x` returns 1 and the write `proxy.b.x = 99` deep-copies
only the `b` sub-object inside the nested proxy (original `b.x` stays 3);
the duplication of the root and the fold are deferred to the next read of
`b` through the root.  That read duplicates the root to cell 9, folds the
still-uncopied `a` override by attaching a fresh deep copy of its
sub-object (cell 10 — not the raw sub-object, cell 0, as-is), attaches
the copied `b` duplicate (cell 6 with `x = 99`), and returns it; the
original target cells 0–2 are untouched throughout. -/
theorem c5_scenario_deferred_fold :
    pgetattr hTPw 3 "b" = some (.ref 6, hTPr) ∧
    hGet hTPr 3 = some (.proxy (.ref 9) true false [("a", .ref 4), ("b", .ref 5)]) ∧
    hGet hTPr 9 = some (.plain [("a", .ref 10), ("b", .ref 6)]) ∧
    hGet hTPr 6 = some (.plain [("x", .int 99), ("y", .int 4)]) ∧
    hGet hTPr 10 = some (.plain [("x", .int 1), ("y", .int 2)]) ∧
    PyVal.ref 10 ≠ PyVal.ref 0 ∧
    hGet hTPr 0 = some (.plain [("x", .int 1), ("y", .int 2)]) ∧
    hGet hTPr 1 = some (.plain [("x", .int 3), ("y", .int 4)]) ∧
    hGet hTPr 2 = some (.plain [("a", .ref 0), ("b", .ref 1)]) := by
  decide

/-- C9 counterexample: the claim says every attempt, from outside the
defined operations, to directly modify or delete the proxy's internal
plumbing raises an error and leaves the state unchanged.  For
modification this is false: `__setattr__` on a slot name falls into
`object.__setattr__(self, name, value)`, which performs the write — here
`proxy._is_copied = True` succeeds silently and flips the flag. -/
theorem c9_slot_set_succeeds_silently :
    psetattr hDel 1 "_is_copied" (.bool true) =
      some ([HObj.plain [("a", .int 1), ("b", .int 2)],
             HObj.proxy (.ref 0) true false []], false) ∧
    hGet [HObj.plain [("a", .int 1), ("b", .int 2)],
          HObj.proxy (.ref 0) true false []] 1 ≠ hGet hDel 1 := by
  decide

/-- C2 amended: numeric and boolean scalar attributes (the members of the
source's `primitive_types`) are returned by value with no wrapper and no
override entry — the heap, and with it the override map, is returned
unchanged.  (Text strings are excluded: the code wraps them, see the
counterexample.) -/
theorem c2_numeric_scalars_returned_by_value
    (h : Heap) (p t : Nat) (ep : Bool) (am attrsT : Attrs) (name : String) (v : PyVal)
    (hp : hGet h p = some (.proxy (.ref t) false ep am))
    (hname : name ∉ slotNames)
    (hmiss : lookupA am name = none)
    (ht : hGet h t = some (.plain attrsT))
    (hv : lookupA attrsT name = some v)
    (hprim : isPrim v = true) :
    pgetattr h p name = some (v, h) := by
  simp [pgetattr, hp, hname, hmiss, getattrVal, ht, hv, hprim]

/-- Witness for C2's amended theorem: reading the integer attribute `n`
of `hStr`'s target returns `7` by value and leaves the heap unchanged. -/
theorem c2_numeric_scalars_witness : pgetattr hStr 1 "n" = some (.int 7, hStr) :=
  c2_numeric_scalars_returned_by_value hStr 1 0 false []
    [("s", .str "hi"), ("n", .int 7)] "n" (.int 7)
    (by decide) (by decide) (by decide) (by decide) (by decide) (by decide)

/-- C9 amended: an attempt to *delete* any of the proxy's internal slot
fields raises (and, the operation returning no new state, leaves the
state unchanged); an attempt to directly *assign* an internal field does
not raise — `object.__setattr__` silently performs it, as shown here for
`_is_copied`. -/
theorem c9_delete_raises_set_silent
    (h : Heap) (p : Nat) (obj : PyVal) (c ep : Bool) (am : Attrs)
    (hp : hGet h p = some (.proxy obj c ep am)) :
    (∀ name, name ∈ slotNames → pdelattr h p name = none) ∧
    psetattr h p "_is_copied" (.bool true) =
      some (hSet h p (.proxy obj true ep am), false) := by
  constructor
  · intro name hn
    simp [pdelattr, hp, hn]
  · simp [psetattr, hp, slotNames]

/-- Witness for C9's amended theorem at the concrete state `hDel`. -/
theorem c9_delete_raises_witness :
    (∀ name, name ∈ slotNames → pdelattr hDel 1 name = none) ∧
    psetattr hDel 1 "_is_copied" (.bool true) =
      some (hSet hDel 1 (.proxy (.ref 0) true false []), false) :=
  c9_delete_raises_set_silent hDel 1 (.ref 0) false false [] (by decide)

/-- C7: in partial-copy mode, `Set(A, value)` stores the value in the
override map only: no duplication is performed (the flag in the result is
`false`), the wrapped target's cell is untouched and `copied` stays
false; reading `A` back returns the written value; and after mutating the
original target directly, a read of an attribute `B` that was never read
or written through the proxy (and is primitive-valued) returns the
target's live value. -/
theorem c7_pcmode_set_overrides_only
    (h : Heap) (p t : Nat) (am attrsT : Attrs) (A B : String) (v w : PyVal)
    (hp : hGet h p = some (.proxy (.ref t) false true am))
    (hA : A ∉ slotNames) (hB : B ∉ slotNames) (hne : B ≠ A)
    (ht : hGet h t = some (.plain attrsT))
    (hBm : lookupA am B = none)
    (hw : isPrim w = true) :
    psetattr h p A v =
      some (hSet h p (.proxy (.ref t) false true (setA am A v)), false) ∧
    pgetattr (hSet h p (.proxy (.ref t) false true (setA am A v))) p A =
      some (v, hSet h p (.proxy (.ref t) false true (setA am A v))) ∧
    hGet (hSet h p (.proxy (.ref t) false true (setA am A v))) t = hGet h t ∧
    pgetattr (hSet (hSet h p (.proxy (.ref t) false true (setA am A v))) t
        (.plain (setA attrsT B w))) p B =
      some (w, hSet (hSet h p (.proxy (.ref t) false true (setA am A v))) t
        (.plain (setA attrsT B w))) := by
  have hplen : p < h.length := hGet_lt_length hp
  have htp : t ≠ p := by
    intro e
    rw [e, hp] at ht
    cases ht
  have hp1 : hGet (hSet h p (.proxy (.ref t) false true (setA am A v))) p =
      some (.proxy (.ref t) false true (setA am A v)) :=
    hGet_hSet_self _ hplen
  refine ⟨?_, ?_, ?_, ?_⟩
  · simp [psetattr, hp, hA]
  · simp [pgetattr, hp1, hA, lookupA_setA_self]
  · exact hGet_hSet_ne _ (fun e => htp e.symm)
  · have hp2 : hGet (hSet (hSet h p (.proxy (.ref t) false true (setA am A v))) t
        (.plain (setA attrsT B w))) p = some (.proxy (.ref t) false true (setA am A v)) := by
      rw [hGet_hSet_ne _ htp]
      exact hp1
    have ht2 : hGet (hSet (hSet h p (.proxy (.ref t) false true (setA am A v))) t
        (.plain (setA attrsT B w))) t = some (.plain (setA attrsT B w)) := by
      refine hGet_hSet_self _ ?_
      rw [length_hSet]
      exact hGet_lt_length ht
    have hBm2 : lookupA (setA am A v) B = none := by
      rw [lookupA_setA_ne am v (fun e => hne e.symm)]
      exact hBm
    simp [pgetattr, hp2, hB, hBm2, getattrVal, ht2, lookupA_setA_self, hw]

/-- Witness for C7 on a partial-copy proxy over `{a: 1, b: 2}`: write
`a = 10`, read it back, then mutate the original's `b` to `42` directly
and observe the live value through the proxy. -/
theorem c7_pcmode_witness :
    psetattr hPC 1 "a" (.int 10) =
      some (hSet hPC 1 (.proxy (.ref 0) false true (setA [] "a" (.int 10))), false) ∧
    pgetattr (hSet hPC 1 (.proxy (.ref 0) false true (setA [] "a" (.int 10)))) 1 "a" =
      some (.int 10, hSet hPC 1 (.proxy (.ref 0) false true (setA [] "a" (.int 10)))) ∧
    hGet (hSet hPC 1 (.proxy (.ref 0) false true (setA [] "a" (.int 10)))) 0 = hGet hPC 0 ∧
    pgetattr (hSet (hSet hPC 1 (.proxy (.ref 0) false true (setA [] "a" (.int 10)))) 0
        (.plain (setA [("a", .int 1), ("b", .int 2)] "b" (.int 42)))) 1 "b" =
      some (.int 42,
        hSet (hSet hPC 1 (.proxy (.ref 0) false true (setA [] "a" (.int 10)))) 0
          (.plain (setA [("a", .int 1), ("b", .int 2)] "b" (.int 42)))) :=
  c7_pcmode_set_overrides_only hPC 1 0 [] [("a", .int 1), ("b", .int 2)]
    "a" "b" (.int 10) (.int 42)
    (by decide) (by decide) (by decide) (by decide) (by decide) (by decide) (by decide)

/-- C10: a `Get` of an aggregate-valued attribute allocates the nested
proxy as `Proxy(attr)` — with `_partial_copy` left at its default
`False` — whatever the owning proxy's mode `ep` is; consequently the
first (non-slot) write through that nested proxy performs the deep
duplication (the flag in the result is `true`) and leaves the original
attribute object untouched. -/
theorem c10_nested_proxy_gets_full_mode
    (h : Heap) (p t q : Nat) (ep : Bool) (am attrsT : Attrs) (name : String)
    (hp : hGet h p = some (.proxy (.ref t) false ep am))
    (hname : name ∉ slotNames)
    (hmiss : lookupA am name = none)
    (ht : hGet h t = some (.plain attrsT))
    (hattr : lookupA attrsT name = some (.ref q)) :
    pgetattr h p name = some (.ref h.length,
      hSet (h ++ [HObj.proxy (.ref q) false false []]) p
        (.proxy (.ref t) false ep (setA am name (.ref h.length)))) ∧
    ∀ n v h2 b, n ∉ slotNames →
      psetattr (hSet (h ++ [HObj.proxy (.ref q) false false []]) p
          (.proxy (.ref t) false ep (setA am name (.ref h.length)))) h.length n v =
        some (h2, b) →
      b = true ∧ hGet h2 q = hGet h q := by
  have hplen : p < h.length := hGet_lt_length hp
  have hpne : p ≠ h.length := Nat.ne_of_lt hplen
  have hq1 : hGet (hSet (h ++ [HObj.proxy (.ref q) false false []]) p
      (.proxy (.ref t) false ep (setA am name (.ref h.length)))) h.length =
      some (.proxy (.ref q) false false []) := by
    rw [hGet_hSet_ne _ hpne]
    exact hGet_append_len h _
  have hgp1 : hGet (hSet (h ++ [HObj.proxy (.ref q) false false []]) p
      (.proxy (.ref t) false ep (setA am name (.ref h.length)))) p =
      some (.proxy (.ref t) false ep (setA am name (.ref h.length))) := by
    refine hGet_hSet_self _ ?_
    rw [List.length_append]
    omega
  have h1len : (hSet (h ++ [HObj.proxy (.ref q) false false []]) p
      (.proxy (.ref t) false ep (setA am name (.ref h.length)))).length = h.length + 1 := by
    rw [length_hSet, List.length_append]
    rfl
  constructor
  · simp [pgetattr, hp, hname, hmiss, getattrVal, ht, hattr, isPrim]
  · intro n v h2 b hn hw
    set H1 : Heap := hSet (h ++ [HObj.proxy (.ref q) false false []]) p
      (.proxy (.ref t) false ep (setA am name (.ref h.length))) with hH
    simp only [psetattr, hq1, hn, Bool.false_eq_true, if_false, lookupA,
      Option.isSome_none, ite_false] at hw
    split at hw
    · rename_i hc obj2 hdc
      rcases dcopyVal_ref hdc with ⟨d, qat, cat, hoe, hq1get, hdge, hcd, ⟨ext, hce⟩⟩
      subst hoe
      have hqlt : q < h.length + 1 := by
        rw [← h1len]
        exact hGet_lt_length hq1get
      have hqlen : q ≠ h.length := by
        intro e
        rw [e, hq1] at hq1get
        cases hq1get
      have hqp : q ≠ p := by
        intro e
        rw [e, hgp1] at hq1get
        cases hq1get
      have hqh : q < h.length := by omega
      have hdq : q ≠ d := by
        rw [h1len] at hdge
        omega
      split at hw
      · rename_i h3 hsv
        rcases setattrVal_some hsv with ⟨a, attrs, ha, hga, h3e⟩
        have had : a = d := by
          cases ha
          rfl
        subst had
        simp only [Option.some.injEq, Prod.mk.injEq] at hw
        refine ⟨hw.2.symm, ?_⟩
        rw [← hw.1]
        rw [hGet_hSet_ne _ (Ne.symm hqlen), h3e,
          hGet_hSet_ne _ (Ne.symm hdq),
          hGet_hSet_ne _ (Ne.symm hqlen), hce,
          hGet_append_lt ext (by rw [h1len]; omega), hH,
          hGet_hSet_ne _ (Ne.symm hqp),
          hGet_append_lt _ hqh]
      · cases hw
    · cases hw

/-- Witness for C10, with the root proxy in partial-copy mode (`hW`):
reading `c` allocates the nested proxy at address 3 with partial-copy
disabled, and the first write through it duplicates the `c` sub-object,
leaving the original (address 0) untouched. -/
theorem c10_nested_proxy_witness :
    pgetattr hW 2 "c" = some (.ref 3,
      hSet (hW ++ [HObj.proxy (.ref 0) false false []]) 2
        (.proxy (.ref 1) false true (setA [] "c" (.ref 3)))) ∧
    (true = true ∧ hGet hW2 0 = hGet hW 0) := by
  have main := c10_nested_proxy_gets_full_mode hW 2 1 0 true [] [("c", .ref 0)] "c"
    (by decide) (by decide) (by decide) (by decide) (by decide)
  exact ⟨main.1, main.2 "z" (.int 9) hW2 true (by decide) (by decide)⟩

/-- Read-step lemma: one successful `Get` through a proxy in a `ReadOk`
state keeps `ReadOk`, only grows the heap, and changes no pre-existing
cell other than the proxy's own. -/
theorem pgetattr_read_step
    (h : Heap) (p t : Nat) (name : String) (v : PyVal) (h1 : Heap)
    (inv : ReadOk h p t)
    (hrun : pgetattr h p name = some (v, h1)) :
    ReadOk h1 p t ∧ h.length ≤ h1.length ∧
    (∀ a, a < h.length → a ≠ p → hGet h1 a = hGet h a) := by
  obtain ⟨am, hp, ham⟩ := inv
  have hplt : p < h.length := hGet_lt_length hp
  have base : ReadOk h p t ∧ h.length ≤ h.length ∧
      (∀ a, a < h.length → a ≠ p → hGet h a = hGet h a) :=
    ⟨⟨am, hp, ham⟩, Nat.le_refl _, fun _ _ _ => rfl⟩
  simp only [pgetattr, hp] at hrun
  by_cases hs : name ∈ slotNames
  · rw [if_pos hs] at hrun
    split at hrun
    · simp at hrun
      rw [← hrun.2]
      exact base
    · split at hrun
      · simp at hrun
        rw [← hrun.2]
        exact base
      · split at hrun
        · simp at hrun
          rw [← hrun.2]
          exact base
        · cases hrun
  · rw [if_neg hs] at hrun
    simp only [Bool.false_eq_true, if_false, ite_false] at hrun
    split at hrun
    · rename_i e heq
      rcases ham _ (lookupA_mem heq) with ⟨q, o, eep, m, he, hqp, hql, hqget⟩
      have he' : e = PyVal.ref q := he
      rw [he'] at hrun
      simp only [entryIsCopied, hqget] at hrun
      simp at hrun
      rw [← hrun.2]
      refine ⟨⟨am, hp, ham⟩, Nat.le_refl _, fun _ _ _ => rfl⟩
    · rename_i heq
      split at hrun
      · rename_i attr hga
        by_cases hpr : isPrim attr
        · rw [if_pos hpr] at hrun
          simp at hrun
          rw [← hrun.2]
          exact base
        · rw [if_neg hpr] at hrun
          simp at hrun
          rw [← hrun.2]
          have hlen1 : (hSet (h ++ [HObj.proxy attr false false []]) p
              (.proxy (.ref t) false false (setA am name (.ref h.length)))).length =
              h.length + 1 := by
            rw [length_hSet, List.length_append]
            rfl
          refine ⟨⟨setA am name (.ref h.length), ?_, ?_⟩, ?_, ?_⟩
          · refine hGet_hSet_self _ ?_
            rw [List.length_append]
            omega
          · intro pr hpr2
            rcases setA_mem hpr2 with hin | hnew
            · rcases ham _ hin with ⟨q, o, eep, m, he, hqp, hql, hqget⟩
              refine ⟨q, o, eep, m, he, hqp, ?_, ?_⟩
              · rw [hlen1]
                omega
              · rw [hGet_hSet_ne _ (Ne.symm hqp), hGet_append_lt _ hql]
                exact hqget
            · refine ⟨h.length, attr, false, [], by rw [hnew], Nat.ne_of_gt hplt, ?_, ?_⟩
              · rw [hlen1]
                omega
              · rw [hGet_hSet_ne _ (Nat.ne_of_lt hplt)]
                exact hGet_append_len h _
          · rw [hlen1]
            omega
          · intro a ha hap
            rw [hGet_hSet_ne _ (Ne.symm hap), hGet_append_lt _ ha]
      · cases hrun

/-- Sequence version of the read-step lemma. -/
theorem readSeq_preserve (p t : Nat) :
    ∀ (names : List String) (h h' : Heap), ReadOk h p t →
      readSeq h p names = some h' →
      ReadOk h' p t ∧ h.length ≤ h'.length ∧
      (∀ a, a < h.length → a ≠ p → hGet h' a = hGet h a) := by
  intro names
  induction names with
  | nil =>
    intro h h' inv hrun
    simp [readSeq] at hrun
    rw [← hrun]
    exact ⟨inv, Nat.le_refl _, fun _ _ _ => rfl⟩
  | cons n rest ih =>
    intro h h' inv hrun
    simp only [readSeq] at hrun
    split at hrun
    · rename_i v h1 hstep
      have step := pgetattr_read_step h p t n v h1 inv hstep
      have tail := ih h1 h' step.1 hrun
      refine ⟨tail.1, Nat.le_trans step.2.1 tail.2.1, ?_⟩
      intro a ha hap
      rw [tail.2.2 a (Nat.lt_of_lt_of_le ha step.2.1) hap, step.2.2 a ha hap]
    · cases hrun

/-- C8: for every plain target `t` and every sequence of reads through a
freshly constructed, still-uncopied full-copy proxy, every pre-existing
heap cell other than the proxy's own bookkeeping cell — in particular
the entire target object graph — is unchanged, and the proxy still wraps
the very same target uncopied (so unwrapping after zero writes yields the
original object itself). -/
theorem c8_reads_preserve_target
    (h : Heap) (p t : Nat) (tattrs : Attrs) (names : List String) (h' : Heap)
    (hp : hGet h p = some (.proxy (.ref t) false false []))
    (ht : hGet h t = some (.plain tattrs))
    (hrun : readSeq h p names = some h') :
    (∀ a, a < h.length → a ≠ p → hGet h' a = hGet h a) ∧
    hGet h' t = hGet h t ∧
    (∃ am', hGet h' p = some (.proxy (.ref t) false false am')) := by
  have inv : ReadOk h p t := ⟨[], hp, by intro pr hpr; cases hpr⟩
  have res := readSeq_preserve p t names h h' inv hrun
  have htp : t ≠ p := by
    intro e
    rw [e, hp] at ht
    cases ht
  refine ⟨res.2.2, res.2.2 t (hGet_lt_length ht) htp, ?_⟩
  rcases res.1 with ⟨am', hp', _⟩
  exact ⟨am', hp'⟩

/-- Witness for C8: the read sequence `a`, `b`, `a` on the `TwoPoints`
proxy leaves all four original cells intact. -/
theorem c8_reads_preserve_witness :
    (∀ a, a < hTP.length → a ≠ 3 → hGet hTPab a = hGet hTP a) ∧
    hGet hTPab 2 = hGet hTP 2 ∧
    (∃ am', hGet hTPab 3 = some (.proxy (.ref 2) false false am')) :=
  c8_reads_preserve_target hTP 3 2 [("a", .ref 0), ("b", .ref 1)] ["a", "b", "a"] hTPab
    (by decide) (by decide) (by decide)

/-- Write-step lemma for an already-copied full-copy proxy: a further
(non-slot) write lands on the duplicate with no further duplication, the
invariant is preserved and the written value reads straight back. -/
theorem psetattr_copied_step
    (h0 h : Heap) (p t d : Nat) (name : String) (v : PyVal)
    (inv : WInv h0 h p t d) (hn : name ∉ slotNames) :
    ∃ h2, psetattr h p name v = some (h2, false) ∧ WInv h0 h2 p t d ∧
      pgetattr h2 p name = some (v, h2) := by
  obtain ⟨⟨am, hp⟩, ⟨da, hd⟩, hplen, htlen, hdge, htp, hframe⟩ := inv
  have hpd : p ≠ d := by omega
  have hdlt : d < h.length := hGet_lt_length hd
  have hplt : p < h.length := hGet_lt_length hp
  have hsv : setattrVal h (.ref d) name v = some (hSet h d (.plain (setA da name v))) := by
    simp [setattrVal, hd]
  refine ⟨hSet (hSet h d (.plain (setA da name v))) p
      (.proxy (.ref d) true false
        (if (lookupA am name).isSome then setA am name v else am)), ?_, ?_, ?_⟩
  · simp [psetattr, hp, hn, hsv]
  · have hplt2 : p < (hSet h d (.plain (setA da name v))).length := by
      rw [length_hSet]
      exact hplt
    refine ⟨⟨_, hGet_hSet_self _ hplt2⟩, ⟨setA da name v, ?_⟩, hplen, htlen, hdge, htp, ?_⟩
    · rw [hGet_hSet_ne _ hpd]
      exact hGet_hSet_self _ hdlt
    · intro a ha hap
      rw [hGet_hSet_ne _ (Ne.symm hap), hGet_hSet_ne _ (by omega : d ≠ a)]
      exact hframe a ha hap
  · have hp2 : hGet (hSet (hSet h d (.plain (setA da name v))) p
        (.proxy (.ref d) true false
          (if (lookupA am name).isSome then setA am name v else am))) p =
        some (.proxy (.ref d) true false
          (if (lookupA am name).isSome then setA am name v else am)) := by
      refine hGet_hSet_self _ ?_
      rw [length_hSet]
      exact hplt
    have hd2 : hGet (hSet (hSet h d (.plain (setA da name v))) p
        (.proxy (.ref d) true false
          (if (lookupA am name).isSome then setA am name v else am))) d =
        some (.plain (setA da name v)) := by
      rw [hGet_hSet_ne _ hpd]
      exact hGet_hSet_self _ hdlt
    simp [pgetattr, hp2, hn, getattrVal, hd2, lookupA_setA_self]

/-- Sequence version: once copied, a run of non-slot writes performs no
further duplication, preserves the invariant, and the last written value
reads back. -/
theorem writeSeq_copied (h0 : Heap) (p t d : Nat) :
    ∀ (ws : List (String × PyVal)) (h h' : Heap) (cnt : Nat),
      WInv h0 h p t d → (∀ pr ∈ ws, pr.1 ∉ slotNames) →
      writeSeq h p ws = some (h', cnt) →
      cnt = 0 ∧ WInv h0 h' p t d ∧
      ∀ ws0 n v, ws = ws0 ++ [(n, v)] → pgetattr h' p n = some (v, h') := by
  intro ws
  induction ws with
  | nil =>
    intro h h' cnt inv hns hrun
    simp only [writeSeq, Option.some.injEq, Prod.mk.injEq] at hrun
    refine ⟨hrun.2.symm, by rw [← hrun.1]; exact inv, ?_⟩
    intro ws0 n v he
    exact absurd he (by simp)
  | cons w rest ih =>
    intro h h' cnt inv hns hrun
    simp only [writeSeq] at hrun
    split at hrun
    · rename_i h1 b hstep
      obtain ⟨h2, heq, inv2, hrb⟩ :=
        psetattr_copied_step h0 h p t d w.1 w.2 inv (hns w (List.mem_cons_self _ _))
      rw [heq] at hstep
      injection hstep with hstep2
      injection hstep2 with hsa hsb
      subst hsa
      subst hsb
      split at hrun
      · rename_i hr cr hws
        obtain ⟨hcr0, invr, hlast⟩ :=
          ih h2 hr cr inv2 (fun pr hpr => hns pr (List.mem_cons_of_mem _ hpr)) hws
        simp only [Bool.false_eq_true, if_false, Option.some.injEq, Prod.mk.injEq,
          ite_false] at hrun
        obtain ⟨hh, hcnt⟩ := hrun
        subst hh
        refine ⟨by omega, invr, ?_⟩
        intro ws0 n v he
        cases ws0 with
        | nil =>
          simp only [List.nil_append, List.cons.injEq] at he
          obtain ⟨hw1, hrest⟩ := he
          subst hrest
          simp only [writeSeq, Option.some.injEq, Prod.mk.injEq] at hws
          obtain ⟨hh2, _⟩ := hws
          subst hh2
          rw [hw1] at hrb
          exact hrb
        | cons w0 ws0' =>
          simp only [List.cons_append, List.cons.injEq] at he
          exact hlast ws0' n v he.2
      · cases hrun
    · cases hrun

/-- First-write lemma for a full-copy proxy: the first successful
(non-slot) write performs the eager duplication and establishes the
copied-state invariant, with the written value reading straight back. -/
theorem psetattr_first_write
    (h : Heap) (p t : Nat) (am : Attrs) (name : String) (v : PyVal)
    (h' : Heap) (b : Bool)
    (hp : hGet h p = some (.proxy (.ref t) false false am))
    (hn : name ∉ slotNames)
    (hw : psetattr h p name v = some (h', b)) :
    b = true ∧ ∃ d, WInv h h' p t d ∧ pgetattr h' p name = some (v, h') := by
  have hplt : p < h.length := hGet_lt_length hp
  simp only [psetattr, hp, hn, Bool.false_eq_true, if_false, ite_false] at hw
  split at hw
  · rename_i hc obj2 hdc
    rcases dcopyVal_ref hdc with ⟨d, tat0, cat, hoe, htget, hdge, hcd, ⟨ext, hce⟩⟩
    subst hoe
    have htlt : t < h.length := hGet_lt_length htget
    have htp : t ≠ p := by
      intro e
      rw [e, hp] at htget
      cases htget
    have hpd : p ≠ d := by omega
    have hclen : h.length ≤ hc.length := by
      rw [hce, List.length_append]
      omega
    have hdlt : d < hc.length := hGet_lt_length hcd
    split at hw
    · rename_i h3 hsv
      rcases setattrVal_some hsv with ⟨d2, attrs, ha, hga, h3e⟩
      injection ha with hdd
      subst hdd
      simp only [Option.some.injEq, Prod.mk.injEq] at hw
      refine ⟨hw.2.symm, d, ?_, ?_⟩
      · refine ⟨⟨(if (lookupA am name).isSome then setA am name v else am), ?_⟩,
          ⟨setA attrs name v, ?_⟩, hplt, htlt, hdge, htp, ?_⟩
        · rw [← hw.1]
          refine hGet_hSet_self _ ?_
          rw [h3e, length_hSet, length_hSet]
          omega
        · rw [← hw.1, hGet_hSet_ne _ hpd, h3e]
          refine hGet_hSet_self _ ?_
          rw [length_hSet]
          exact hdlt
        · intro a2 ha2 hap2
          rw [← hw.1, hGet_hSet_ne _ (Ne.symm hap2), h3e,
            hGet_hSet_ne _ (by omega : d ≠ a2),
            hGet_hSet_ne _ (Ne.symm hap2), hce, hGet_append_lt _ ha2]
      · have hp2 : hGet h' p = some (.proxy (.ref d) true false
            (if (lookupA am name).isSome then setA am name v else am)) := by
          rw [← hw.1]
          refine hGet_hSet_self _ ?_
          rw [h3e, length_hSet, length_hSet]
          omega
        have hd2get : hGet h' d = some (.plain (setA attrs name v)) := by
          rw [← hw.1, hGet_hSet_ne _ hpd, h3e]
          refine hGet_hSet_self _ ?_
          rw [length_hSet]
          exact hdlt
        simp [pgetattr, hp2, hn, getattrVal, hd2get, lookupA_setA_self]
    · cases hw
  · cases hw

/-- C6: a sequence of `k ≥ 1` direct (non-slot) attribute writes through
a full-copy proxy performs exactly one duplication of the wrapped target
(the duplication counter accumulated over the run is 1); every
pre-existing heap cell other than the proxy's own bookkeeping cell — in
particular the original target, reachable through any separate
reference — is unchanged; and a read through the proxy of the last
written attribute returns the written value. -/
theorem c6_exactly_one_duplication
    (h : Heap) (p t : Nat) (am : Attrs) (ws0 : List (String × PyVal))
    (nl : String) (vl : PyVal) (h' : Heap) (cnt : Nat)
    (hp : hGet h p = some (.proxy (.ref t) false false am))
    (hns : ∀ pr ∈ ws0 ++ [(nl, vl)], pr.1 ∉ slotNames)
    (hrun : writeSeq h p (ws0 ++ [(nl, vl)]) = some (h', cnt)) :
    cnt = 1 ∧ (∀ a, a < h.length → a ≠ p → hGet h' a = hGet h a) ∧
    hGet h' t = hGet h t ∧ pgetattr h' p nl = some (vl, h') := by
  cases ws0 with
  | nil =>
    simp only [List.nil_append, writeSeq] at hrun
    split at hrun
    · rename_i h1 b hstep
      obtain ⟨hb, d, inv, hrb⟩ :=
        psetattr_first_write h p t am nl vl h1 b hp
          (hns (nl, vl) (List.mem_cons_self _ _)) hstep
      subst hb
      simp only [if_true, Option.some.injEq, Prod.mk.injEq, ite_true] at hrun
      obtain ⟨hh, hcnt⟩ := hrun
      subst hh
      obtain ⟨_, _, hplen, htlen, hdge, htp, hframe⟩ := inv
      exact ⟨by omega, fun a ha hap => hframe a ha hap, hframe t htlen htp, hrb⟩
    · cases hrun
  | cons w ws0' =>
    simp only [List.cons_append, writeSeq] at hrun
    split at hrun
    · rename_i h1 b hstep
      obtain ⟨hb, d, inv, _⟩ :=
        psetattr_first_write h p t am w.1 w.2 h1 b hp
          (hns w (List.mem_cons_self _ _)) hstep
      subst hb
      split at hrun
      · rename_i hr cr hws
        obtain ⟨hcr0, invr, hlast⟩ :=
          writeSeq_copied h p t d (ws0' ++ [(nl, vl)]) h1 hr cr inv
            (fun pr hpr => hns pr (List.mem_cons_of_mem _ hpr)) hws
        simp only [if_true, Option.some.injEq, Prod.mk.injEq, ite_true] at hrun
        obtain ⟨hh, hcnt⟩ := hrun
        subst hh
        obtain ⟨_, _, hplen, htlen, hdge, htp, hframe'⟩ := invr
        exact ⟨by omega, fun a ha hap => hframe' a ha hap, hframe' t htlen htp,
          hlast ws0' nl vl rfl⟩
      · cases hrun
    · cases hrun

/-- Witness for C6: the write sequence `a = 5; a = 7` on the full-copy
proxy over `{a: 1, b: 2}` duplicates once, leaves the original intact,
and reads back 7. -/
theorem c6_one_duplication_witness :
    (1 : Nat) = 1 ∧ (∀ a, a < hDel.length → a ≠ 1 → hGet hDelW a = hGet hDel a) ∧
    hGet hDelW 0 = hGet hDel 0 ∧ pgetattr hDelW 1 "a" = some (.int 7, hDelW) :=
  c6_exactly_one_duplication hDel 1 0 [] [("a", .int 5)] "a" (.int 7) hDelW 1
    (by decide) (by decide) (by decide)

/-- Specification of the fold loop of `__getattribute__`: folding the
entries of the override map onto the fresh duplicate `d` (a plain cell)
yields a heap in which (1) `d` is still plain, (2) the heap only grew,
(3) already-copied proxies are untouched, (4) plain cells other than `d`
are untouched, (5) attributes of `d` not named in the map are untouched,
(6) every map entry is a nested proxy that ends up copied with its
object written onto `d` under the entry's name, and (7) an entry that
was still uncopied had its object deep-copied first, to a fresh plain
cell. -/
theorem foldEntries_spec :
    ∀ (am : Attrs) (h : Heap) (d : Nat) (da : Attrs) (h' : Heap),
      hGet h d = some (.plain da) →
      foldEntries h d am = some h' →
      (am.map Prod.fst).Nodup →
      ∃ da', hGet h' d = some (.plain da') ∧
        h.length ≤ h'.length ∧
        (∀ a o eep em, a ≠ d → hGet h a = some (.proxy o true eep em) →
          hGet h' a = some (.proxy o true eep em)) ∧
        (∀ a attrs0, a ≠ d → hGet h a = some (.plain attrs0) →
          hGet h' a = some (.plain attrs0)) ∧
        (∀ n, n ∉ am.map Prod.fst → lookupA da' n = lookupA da n) ∧
        (∀ pr ∈ am, ∃ q ob eep em, pr.2 = .ref q ∧
          hGet h' q = some (.proxy ob true eep em) ∧ lookupA da' pr.1 = some ob) ∧
        (∀ pr ∈ am, ∀ q a0 eep em, pr.2 = .ref q →
          hGet h q = some (.proxy (.ref a0) false eep em) →
          ∃ d2 battrs, h.length ≤ d2 ∧
            hGet h' q = some (.proxy (.ref d2) true eep em) ∧
            hGet h' d2 = some (.plain battrs)) := by
  intro am
  induction am with
  | nil =>
    intro h d da h' hd hfold hnd
    simp only [foldEntries, Option.some.injEq] at hfold
    subst hfold
    exact ⟨da, hd, Nat.le_refl _, fun _ _ _ _ _ hx => hx, fun _ _ _ hx => hx,
      fun _ _ => rfl, fun pr hpr => absurd hpr (List.not_mem_nil _),
      fun pr hpr => absurd hpr (List.not_mem_nil _)⟩
  | cons pr0 rest ih =>
    intro h d da h' hd hfold hnd
    obtain ⟨n, e⟩ := pr0
    have hddlt : d < h.length := hGet_lt_length hd
    simp only [List.map_cons, List.nodup_cons, List.mem_map] at hnd
    obtain ⟨hnmem, hndrest⟩ := hnd
    simp only [foldEntries] at hfold
    split at hfold
    · rename_i q
      split at hfold
      · rename_i eobj ec eep eam hq
        have hqd : q ≠ d := by
          intro hx
          rw [hx, hd] at hq
          cases hq
        have hqlt : q < h.length := hGet_lt_length hq
        cases ec with
        | true =>
          rw [if_pos rfl] at hfold
          split at hfold
          · rename_i h1 hsv
            rcases setattrVal_some hsv with ⟨d2, attrs, ha, hga, h1e⟩
            injection ha with hdd
            subst hdd
            rw [hd] at hga
            injection hga with hga2
            injection hga2 with hga3
            subst hga3
            have hd1 : hGet h1 d = some (.plain (setA da n eobj)) := by
              rw [h1e]
              exact hGet_hSet_self _ hddlt
            obtain ⟨da', hda', hlen, hcpres, hppres, hlook, hfolded, hfresh⟩ :=
              ih h1 d (setA da n eobj) h' hd1 hfold hndrest
            have hlen1 : h1.length = h.length := by
              rw [h1e, length_hSet]
            have htrans : ∀ a : Nat, a ≠ d → hGet h1 a = hGet h a := by
              intro a had
              rw [h1e, hGet_hSet_ne _ (Ne.symm had)]
            refine ⟨da', hda', by omega, ?_, ?_, ?_, ?_, ?_⟩
            · intro a o eep2 em2 had hx
              refine hcpres a o eep2 em2 had ?_
              rw [htrans a had]
              exact hx
            · intro a attrs0 had hx
              refine hppres a attrs0 had ?_
              rw [htrans a had]
              exact hx
            · intro n2 hn2
              simp only [List.map_cons, List.mem_cons, not_or] at hn2
              rw [hlook n2 hn2.2, lookupA_setA_ne da eobj (Ne.symm hn2.1)]
            · intro pr hpr
              rcases List.mem_cons.mp hpr with hhead | htail
              · refine ⟨q, eobj, eep, eam, by rw [hhead], ?_, ?_⟩
                · refine hcpres q eobj eep eam hqd ?_
                  rw [htrans q hqd]
                  exact hq
                · rw [hhead]
                  have : ¬∃ x ∈ rest, x.1 = n := by
                    intro ⟨x, hx1, hx2⟩
                    exact hnmem ⟨x, hx1, hx2⟩
                  rw [hlook n (by
                    intro hc2
                    rcases List.mem_map.mp hc2 with ⟨x, hx1, hx2⟩
                    exact hnmem ⟨x, hx1, hx2⟩), lookupA_setA_self]
              · exact hfolded pr htail
            · intro pr hpr q2 a0 eep2 em2 hpe hx
              rcases List.mem_cons.mp hpr with hhead | htail
              · exfalso
                rw [hhead] at hpe
                simp only at hpe
                injection hpe with hq2
                rw [← hq2, hq] at hx
                cases hx
              · have hq2d : q2 ≠ d := by
                  intro hx2
                  rw [hx2, hd] at hx
                  cases hx
                rcases hfresh pr htail q2 a0 eep2 em2 hpe (by rw [htrans q2 hq2d]; exact hx)
                  with ⟨d3, battrs, hd3ge, hh1, hh2⟩
                exact ⟨d3, battrs, by omega, hh1, hh2⟩
          · cases hfold
        | false =>
          rw [if_neg (by simp)] at hfold
          split at hfold
          · rename_i hcop eobj2 hdc
            rcases dcopyVal_append hdc with ⟨ext, hce⟩
            split at hfold
            · rename_i h3 hsv
              rcases setattrVal_some hsv with ⟨d2, attrs, ha, hga, h3e⟩
              injection ha with hdd
              subst hdd
              have hcoplen : h.length ≤ hcop.length := by
                rw [hce, List.length_append]
                omega
              have hga2 : hGet (hSet hcop q (.proxy eobj2 true eep eam)) d =
                  some (.plain da) := by
                rw [hGet_hSet_ne _ hqd, hce, hGet_append_lt _ hddlt]
                exact hd
              rw [hga2] at hga
              injection hga with hga3
              injection hga3 with hga4
              subst hga4
              have hd3 : hGet h3 d = some (.plain (setA da n eobj2)) := by
                rw [h3e]
                refine hGet_hSet_self _ ?_
                rw [length_hSet, hce, List.length_append]
                omega
              obtain ⟨da', hda', hlen, hcpres, hppres, hlook, hfolded, hfresh⟩ :=
                ih h3 d (setA da n eobj2) h' hd3 hfold hndrest
              have hlen3 : h3.length = hcop.length := by
                rw [h3e, length_hSet, length_hSet]
              have htrans : ∀ a : Nat, a < h.length → a ≠ d → a ≠ q →
                  hGet h3 a = hGet h a := by
                intro a halt had haq
                rw [h3e, hGet_hSet_ne _ (Ne.symm had), hGet_hSet_ne _ (Ne.symm haq),
                  hce, hGet_append_lt _ halt]
              have hq3 : hGet h3 q = some (.proxy eobj2 true eep eam) := by
                rw [h3e, hGet_hSet_ne _ (Ne.symm hqd)]
                refine hGet_hSet_self _ ?_
                rw [hce, List.length_append]
                omega
              have hq3' : hGet h' q = some (.proxy eobj2 true eep eam) :=
                hcpres q eobj2 eep eam hqd hq3
              refine ⟨da', hda', by omega, ?_, ?_, ?_, ?_, ?_⟩
              · intro a o eep2 em2 had hx
                have haq : a ≠ q := by
                  intro hx2
                  rw [hx2, hq] at hx
                  cases hx
                refine hcpres a o eep2 em2 had ?_
                rw [htrans a (hGet_lt_length hx) had haq]
                exact hx
              · intro a attrs0 had hx
                have haq : a ≠ q := by
                  intro hx2
                  rw [hx2, hq] at hx
                  cases hx
                refine hppres a attrs0 had ?_
                rw [htrans a (hGet_lt_length hx) had haq]
                exact hx
              · intro n2 hn2
                simp only [List.map_cons, List.mem_cons, not_or] at hn2
                rw [hlook n2 hn2.2, lookupA_setA_ne da eobj2 (Ne.symm hn2.1)]
              · intro pr hpr
                rcases List.mem_cons.mp hpr with hhead | htail
                · refine ⟨q, eobj2, eep, eam, by rw [hhead], hq3', ?_⟩
                  rw [hhead]
                  rw [hlook n (by
                    intro hc2
                    rcases List.mem_map.mp hc2 with ⟨x, hx1, hx2⟩
                    exact hnmem ⟨x, hx1, hx2⟩), lookupA_setA_self]
                · exact hfolded pr htail
              · have hfreshq : ∀ a0, eobj = .ref a0 →
                    ∃ d3 battrs, h.length ≤ d3 ∧
                      hGet h' q = some (.proxy (.ref d3) true eep eam) ∧
                      hGet h' d3 = some (.plain battrs) := by
                  intro a0 hea
                  rw [hea] at hdc
                  rcases dcopyVal_ref hdc with
                    ⟨d3, ba0, battrs, hoe2, _, hd3ge, hd3get, _⟩
                  subst hoe2
                  have hd3d : d3 ≠ d := by omega
                  have hd3q : d3 ≠ q := by omega
                  have hd3h3 : hGet h3 d3 = some (.plain battrs) := by
                    rw [h3e, hGet_hSet_ne _ (Ne.symm hd3d), hGet_hSet_ne _ (Ne.symm hd3q)]
                    exact hd3get
                  exact ⟨d3, battrs, hd3ge, hq3', hppres d3 battrs hd3d hd3h3⟩
                intro pr hpr q2 a0 eep2 em2 hpe hx
                rcases List.mem_cons.mp hpr with hhead | htail
                · rw [hhead] at hpe
                  simp only at hpe
                  injection hpe with hq2
                  subst hq2
                  rw [hq] at hx
                  injection hx with hx2
                  cases hx2
                  exact hfreshq a0 rfl
                · by_cases hq2q : q2 = q
                  · subst hq2q
                    rw [hq] at hx
                    injection hx with hx2
                    cases hx2
                    exact hfreshq a0 rfl
                  · have hq2d : q2 ≠ d := by
                      intro hx2
                      rw [hx2, hd] at hx
                      cases hx
                    rcases hfresh pr htail q2 a0 eep2 em2 hpe
                      (by rw [htrans q2 (hGet_lt_length hx) hq2d hq2q]; exact hx)
                      with ⟨d3, battrs, hd3ge, hh1, hh2⟩
                    exact ⟨d3, battrs, by omega, hh1, hh2⟩
            · cases hfold
          · cases hfold
      · cases hfold
    · cases hfold

/-- C4: in full-copy mode with `copied == false`, a successful `Get` of
an overridden attribute whose nested proxy has itself become copied
deep-duplicates the target (to a fresh cell `d`), marks the node
`copied = true` (re-targeting it at `d`), folds every entry of the
override map onto the duplicate — forcing any still-uncopied nested
proxy to copy its object to a fresh cell first, and writing each entry's
object under its name — and returns the attribute freshly read from the
duplicate, leaving the original target untouched.  (The hypothesis that
no entry references the proxy's own cell holds in every reachable state:
entries are freshly allocated nested proxies.) -/
theorem c4_copied_override_read_triggers_fold
    (h : Heap) (p t : Nat) (am : Attrs) (name : String) (e v : PyVal) (h' : Heap)
    (hp : hGet h p = some (.proxy (.ref t) false false am))
    (hname : name ∉ slotNames)
    (hhit : lookupA am name = some e)
    (hec : entryIsCopied h e = some true)
    (hnd : (am.map Prod.fst).Nodup)
    (hnotp : ∀ pr ∈ am, pr.2 ≠ PyVal.ref p)
    (hrun : pgetattr h p name = some (v, h')) :
    ∃ d da', h.length ≤ d ∧
      hGet h' p = some (.proxy (.ref d) true false am) ∧
      hGet h' d = some (.plain da') ∧
      lookupA da' name = some v ∧
      (∀ pr ∈ am, ∃ q ob eep em, pr.2 = .ref q ∧
        hGet h' q = some (.proxy ob true eep em) ∧ lookupA da' pr.1 = some ob) ∧
      (∀ pr ∈ am, ∀ q a0 eep em, pr.2 = .ref q →
        hGet h q = some (.proxy (.ref a0) false eep em) →
        ∃ d2 battrs, h.length ≤ d2 ∧
          hGet h' q = some (.proxy (.ref d2) true eep em) ∧
          hGet h' d2 = some (.plain battrs)) ∧
      hGet h' t = hGet h t := by
  have hplt : p < h.length := hGet_lt_length hp
  simp only [pgetattr, hp, hname, hhit, hec, Bool.false_eq_true, if_false, ite_false] at hrun
  split at hrun
  · rename_i hc obj2 hdc
    rcases dcopyVal_ref hdc with ⟨d, tat, cat, hoe, htget, hdge, hcd, ⟨ext, hce⟩⟩
    subst hoe
    dsimp only at hrun
    have htlt : t < h.length := hGet_lt_length htget
    have htp : t ≠ p := by
      intro hx
      rw [hx, hp] at htget
      cases htget
    have hpd : p ≠ d := by omega
    have hclen : h.length ≤ hc.length := by
      rw [hce, List.length_append]
      omega
    have hH2len : (hSet hc p (.proxy (.ref d) true false am)).length = hc.length :=
      length_hSet _ _ _
    have hH2d : hGet (hSet hc p (.proxy (.ref d) true false am)) d =
        some (.plain cat) := by
      rw [hGet_hSet_ne _ hpd]
      exact hcd
    have hH2p : hGet (hSet hc p (.proxy (.ref d) true false am)) p =
        some (.proxy (.ref d) true false am) := by
      refine hGet_hSet_self _ ?_
      omega
    have hH2trans : ∀ a : Nat, a < h.length → a ≠ p →
        hGet (hSet hc p (.proxy (.ref d) true false am)) a = hGet h a := by
      intro a halt hap
      rw [hGet_hSet_ne _ (Ne.symm hap), hce, hGet_append_lt _ halt]
    split at hrun
    · rename_i h3 hfold
      obtain ⟨da', hda', hlen, hcpres, hppres, hlook, hfolded, hfresh⟩ :=
        foldEntries_spec am _ d cat h3 hH2d hfold hnd
      split at hrun
      · rename_i v2 hv2
        simp only [Option.some.injEq, Prod.mk.injEq] at hrun
        obtain ⟨hveq, hheq⟩ := hrun
        subst hveq
        subst hheq
        simp only [getattrVal, hda'] at hv2
        refine ⟨d, da', hdge, hcpres p (.ref d) false am hpd hH2p, hda', hv2,
          hfolded, ?_, ?_⟩
        · intro pr hpr q a0 eep em hpe hx
          have hqp : q ≠ p := by
            intro hx2
            rw [hx2] at hpe
            exact hnotp pr hpr hpe
          have hxl : q < h.length := hGet_lt_length hx
          rcases hfresh pr hpr q a0 eep em hpe
            (by rw [hH2trans q hxl hqp]; exact hx) with ⟨d2, battrs, hd2ge, hh1, hh2⟩
          refine ⟨d2, battrs, by omega, hh1, hh2⟩
        · have htd : t ≠ d := by omega
          have := hppres t tat htd (by rw [hH2trans t htlt htp]; exact htget)
          rw [this, htget]
      · cases hrun
    · cases hrun
  · cases hrun

/-- Witness for C4 at the `TwoPoints` scenario state `hTPw`: the read of
`b` (whose nested proxy is copied) triggers the duplication and the
fold, producing `hTPr`. -/
theorem c4_fold_witness :
    ∃ d da', hTPw.length ≤ d ∧
      hGet hTPr 3 = some (.proxy (.ref d) true false [("a", .ref 4), ("b", .ref 5)]) ∧
      hGet hTPr d = some (.plain da') ∧
      lookupA da' "b" = some (.ref 6) ∧
      (∀ pr ∈ [("a", PyVal.ref 4), ("b", PyVal.ref 5)], ∃ q ob eep em,
        pr.2 = PyVal.ref q ∧
        hGet hTPr q = some (.proxy ob true eep em) ∧ lookupA da' pr.1 = some ob) ∧
      (∀ pr ∈ [("a", PyVal.ref 4), ("b", PyVal.ref 5)], ∀ q a0 eep em,
        pr.2 = PyVal.ref q →
        hGet hTPw q = some (.proxy (.ref a0) false eep em) →
        ∃ d2 battrs, hTPw.length ≤ d2 ∧
          hGet hTPr q = some (.proxy (.ref d2) true eep em) ∧
          hGet hTPr d2 = some (.plain battrs)) ∧
      hGet hTPr 2 = hGet hTPw 2 :=
  c4_copied_override_read_triggers_fold hTPw 3 2 [("a", .ref 4), ("b", .ref 5)]
    "b" (.ref 5) (.ref 6) hTPr
    (by decide) (by decide) (by decide) (by decide) (by decide) (by decide) (by decide)

end Pycow
